import Mathlib

/-!
Verification of the streaming frequency-statistics programs `Chinese.py`
and `SHAKESPEARE.py`.

Modelling conventions (shallow embedding):
* Python strings are `List Char`.
* `collections.Counter` is `Multiset` (the counter maps each distinct key
  to its multiplicity; `counter.update(xs)` is multiset addition of the
  coercion of the list `xs`; `counter.values()` is the multiset of counts
  of the distinct elements; `len(counter)` is `Multiset.toFinset.card`).
* Python floats are real numbers `ℝ`; `math.log2` is `Real.logb 2`.
* `jieba.lcut` is an external library and is modelled as an abstract
  segmentation function `seg : List Char → List (List Char)`.
-/

namespace Freq

/-- Helper for Python `str.split(sep)`: the first fragment of the split
together with the remaining fragments. -/
def pySplitAux (sep : Char) : List Char → List Char × List (List Char)
  | [] => ([], [])
  | c :: cs =>
    if c = sep then ([], (pySplitAux sep cs).1 :: (pySplitAux sep cs).2)
    else (c :: (pySplitAux sep cs).1, (pySplitAux sep cs).2)

/-- Python `str.split(sep)` for a one-character separator: the list of
(possibly empty) fragments between occurrences of `sep`. -/
def pySplit (sep : Char) (l : List Char) : List (List Char) :=
  (pySplitAux sep l).1 :: (pySplitAux sep l).2

/-- Python `counter.values()`: the multiset of counts of the distinct
elements of the counter. -/
def counterValues {α : Type*} [DecidableEq α] (m : Multiset α) : Multiset ℕ :=
  m.toFinset.val.map fun a => m.count a

/-- Python `sorted(xs, reverse=True)`: the elements of the multiset listed
in non-increasing order (modelled as the reversal of the ascending sort). -/
def sortDesc (m : Multiset ℕ) : List ℕ :=
  (m.sort (· ≤ ·)).reverse

/-- The rank-frequency builder: `(np.arange(1, len(counter)+1),
sorted(counter.values(), reverse=True))` from the two scripts. -/
def rank_frequency {α : Type*} [DecidableEq α] (counter : Multiset α) : List ℕ × List ℕ :=
  (List.range' 1 counter.toFinset.card, sortDesc (counterValues counter))

end Freq

namespace Chinese

/-- The sentence terminator `。` (U+3002) of `Chinese.py`. -/
def fullStop : Char := Char.ofNat 0x3002

/-- Membership in the character class kept by the cleaning step
`re.sub(r'[^一-龥。]', '', text)`: a CJK ideograph. -/
def isCJK (c : Char) : Bool := decide (0x4e00 ≤ c.toNat) && decide (c.toNat ≤ 0x9fa5)

/-- State of `ProcessingPipeline` from `Chinese.py`. -/
structure ProcessingPipeline where
  char_counter : Multiset Char
  word_counter : Multiset (List Char)
  sentence_counter : Multiset (List Char)
  total_chars : ℕ
  total_words : ℕ
  total_sentences : ℕ
deriving DecidableEq

/-- Embeds `ProcessingPipeline.__init__`: empty counters, zero totals. -/
def init : ProcessingPipeline := ⟨0, 0, 0, 0, 0, 0⟩

/-- Embeds `ProcessingPipeline._count_chars`: drop the full stops, update the
character counter and the running total. -/
def count_chars (p : ProcessingPipeline) (text : List Char) : ProcessingPipeline :=
  let chars := text.filter (· != fullStop)
  { p with
    char_counter := p.char_counter + (chars : Multiset Char)
    total_chars := p.total_chars + chars.length }

/-- Embeds `ProcessingPipeline._count_words`. -/
def count_words (p : ProcessingPipeline) (words : List (List Char)) : ProcessingPipeline :=
  { p with
    word_counter := p.word_counter + (words : Multiset (List Char))
    total_words := p.total_words + words.length }

/-- Embeds `ProcessingPipeline._count_sentences`. -/
def count_sentences (p : ProcessingPipeline) (sentences : List (List Char)) : ProcessingPipeline :=
  { p with
    sentence_counter := p.sentence_counter + (sentences : Multiset (List Char))
    total_sentences := p.total_sentences + sentences.length }

/-- Embeds `ProcessingPipeline.process_text`: clean the block, then fold the
character, sentence and word statistics into the pipeline state.  The
external `jieba.lcut` segmenter is the parameter `seg`. -/
def process_text (seg : List Char → List (List Char)) (p : ProcessingPipeline)
    (text : List Char) : ProcessingPipeline :=
  let text := text.filter (fun c => isCJK c || c == fullStop)
  let p := count_chars p text
  let sentences := (Freq.pySplit fullStop text).filter (· ≠ [])
  let p := count_sentences p sentences
  let words := seg (text.filter (· != fullStop))
  count_words p words

/-- The driving loop of `Chinese.py`: fold a list of text blocks through
`process_text`, starting from the freshly initialised pipeline. -/
def run (seg : List Char → List (List Char)) (blocks : List (List Char)) : ProcessingPipeline :=
  blocks.foldl (process_text seg) init

/-- The cleaned form of a block (`re.sub(r'[^一-龥。]', '', text)`). -/
def cleaned (text : List Char) : List Char :=
  text.filter (fun c => isCJK c || c == fullStop)

/-- The character occurrences one block contributes to the pipeline. -/
def blockChars (text : List Char) : List Char :=
  (cleaned text).filter (· != fullStop)

/-- The sentence fragments one block contributes to the pipeline. -/
def blockSentences (text : List Char) : List (List Char) :=
  (Freq.pySplit fullStop (cleaned text)).filter (· ≠ [])

/-- The words one block contributes to the pipeline, for a given
segmentation function. -/
def blockWords (seg : List Char → List (List Char)) (text : List Char) : List (List Char) :=
  seg ((cleaned text).filter (· != fullStop))

/-- Embeds `calculate_entropy(counter, total, alpha=1e-5)` from `Chinese.py`:
Laplace-smoothed Shannon entropy of the counter, iterating over
`counter.values()` with `len(counter)` distinct units. -/
noncomputable def calculate_entropy {α : Type*} [DecidableEq α] (counter : Multiset α)
    (total : ℝ) (alpha : ℝ) : ℝ :=
  ((Freq.counterValues counter).map fun count : ℕ =>
    -(((count : ℝ) + alpha) / (total + alpha * (counter.toFinset.card : ℝ)) *
      Real.logb 2 (((count : ℝ) + alpha) / (total + alpha * (counter.toFinset.card : ℝ))))).sum

end Chinese

namespace Shakespeare

/-- The apostrophe character. -/
def apos : Char := Char.ofNat 39

/-- Membership in the character range `[a-z]`. -/
def isLowerAZ (c : Char) : Bool := decide ('a' ≤ c) && decide (c ≤ 'z')

/-- Membership in the regex character class `[a-z']`. -/
def isClassChar (c : Char) : Bool := isLowerAZ c || c == apos

/-- A regex word character `\w` (the ASCII fragment relevant to the
lower-cased corpus: letters, digits and underscore). -/
def isWordChar (c : Char) : Bool := c.isAlpha || c.isDigit || c == '_'

/-- Word-character status of an optional character;
a missing character (start or end of the text) is not a word character. -/
def wordOpt : Option Char → Bool
  | none => false
  | some c => isWordChar c

/-- Word-character status of the position `k` characters into `run`,
where `wnext` is the status of the first character after `run`. -/
def wordAt (run : List Char) (wnext : Bool) (k : ℕ) : Bool :=
  match run.drop k with
  | [] => wnext
  | c :: _ => isWordChar c

/-- Whether the regex word boundary `\b` holds between the `k`-th
character of `run` (1-based) and the following character. -/
def boundAfter (run : List Char) (wnext : Bool) (k : ℕ) : Bool :=
  wordAt run wnext (k - 1) != wordAt run wnext k

/-- Greedy backtracking of `[a-z']{2,}\b`: starting from the candidate
length `k` and counting down, the first (hence largest) length of at least
2 after which a word boundary holds. -/
def bestEnd (run : List Char) (wnext : Bool) : ℕ → Option ℕ
  | 0 => none
  | k + 1 =>
    if 2 ≤ k + 1 && boundAfter run wnext (k + 1) then some (k + 1)
    else bestEnd run wnext k

/-- One left-to-right scan of `re.findall(r"\b[a-z']{2,}\b", ·)`:
`p` is the character before the current position (`none` at the start of
the text) and `fuel` bounds the number of scanning steps (each step
advances at least one character, so `fuel = length` suffices). -/
def findWordsAux : ℕ → Option Char → List Char → List (List Char)
  | 0, _, _ => []
  | _, _, [] => []
  | fuel + 1, p, c :: cs =>
    let run := (c :: cs).takeWhile isClassChar
    let wnext := wordOpt ((c :: cs).drop run.length).head?
    match (if wordOpt p != isWordChar c then bestEnd run wnext run.length else none) with
    | some k => run.take k :: findWordsAux fuel (run.take k).getLast? (cs.drop (k - 1))
    | none => findWordsAux fuel (some c) cs

/-- The word extraction `re.findall(r"\b[a-z']{2,}\b", text)` of
`LinguisticAnalyzer._analyze_words`. -/
def findWords (text : List Char) : List (List Char) :=
  findWordsAux text.length none text

/-- State of `LinguisticAnalyzer` from `SHAKESPEARE.py`; the fields
`chars`, `words` and `files` are the entries of the `counts` dict. -/
structure LinguisticAnalyzer where
  char_stats : Multiset Char
  word_stats : Multiset (List Char)
  chars : ℕ
  words : ℕ
  files : ℕ
deriving DecidableEq

/-- Embeds `LinguisticAnalyzer.__init__`. -/
def init : LinguisticAnalyzer := ⟨0, 0, 0, 0, 0⟩

/-- Embeds `LinguisticAnalyzer._clean_text`: `text.lower().strip()`. -/
def clean_text (text : List Char) : List Char :=
  ((((text.map Char.toLower).dropWhile Char.isWhitespace).reverse.dropWhile
    Char.isWhitespace).reverse)

/-- Embeds `LinguisticAnalyzer._analyze_chars`: count the `[a-z]` occurrences. -/
def analyze_chars (a : LinguisticAnalyzer) (text : List Char) : LinguisticAnalyzer :=
  let chars := text.filter isLowerAZ
  { a with
    char_stats := a.char_stats + (chars : Multiset Char)
    chars := a.chars + chars.length }

/-- Embeds `LinguisticAnalyzer._analyze_words`: count the regex-extracted words. -/
def analyze_words (a : LinguisticAnalyzer) (text : List Char) : LinguisticAnalyzer :=
  let words := findWords text
  { a with
    word_stats := a.word_stats + (words : Multiset (List Char))
    words := a.words + words.length }

/-- Embeds `LinguisticAnalyzer.process`: clean the block, fold in character and
word statistics, and count the processed file. -/
def process (a : LinguisticAnalyzer) (text : List Char) : LinguisticAnalyzer :=
  let clean := clean_text text
  let a := analyze_chars a clean
  let a := analyze_words a clean
  { a with files := a.files + 1 }

/-- The driving loop of `SHAKESPEARE.py`. -/
def run (blocks : List (List Char)) : LinguisticAnalyzer :=
  blocks.foldl process init

/-- The character occurrences one block contributes to the analyzer. -/
def blockChars (text : List Char) : List Char :=
  (clean_text text).filter isLowerAZ

/-- The words one block contributes to the analyzer. -/
def blockWords (text : List Char) : List (List Char) :=
  findWords (clean_text text)

/-- Embeds `calculate_entropy(counter, total_count)` from `SHAKESPEARE.py`:
the same smoothed entropy with the fixed smoothing constant `1e-10`. -/
noncomputable def calculate_entropy {α : Type*} [DecidableEq α] (counter : Multiset α)
    (total_count : ℝ) : ℝ :=
  ((Freq.counterValues counter).map fun count : ℕ =>
    -(((count : ℝ) + 1 / 10 ^ 10) / (total_count + 1 / 10 ^ 10 * (counter.toFinset.card : ℝ)) *
      Real.logb 2
        (((count : ℝ) + 1 / 10 ^ 10) /
          (total_count + 1 / 10 ^ 10 * (counter.toFinset.card : ℝ))))).sum

end Shakespeare

/-! ## Supporting lemmas -/

namespace Freq

/-- The fragments produced by `pySplit` never contain the separator. -/
theorem pySplit_not_mem_sep (sep : Char) (l : List Char) :
    ∀ s ∈ pySplit sep l, sep ∉ s := by
  suffices h : sep ∉ (pySplitAux sep l).1 ∧ ∀ s ∈ (pySplitAux sep l).2, sep ∉ s by
    intro s hs
    rcases List.mem_cons.1 hs with rfl | hs'
    · exact h.1
    · exact h.2 s hs'
  induction l with
  | nil => simp [pySplitAux]
  | cons c cs ih =>
    by_cases hc : c = sep
    · refine ⟨by simp [pySplitAux, hc], ?_⟩
      intro s hs
      rw [pySplitAux] at hs
      rw [if_pos hc] at hs
      rcases List.mem_cons.1 hs with rfl | hs'
      · exact ih.1
      · exact ih.2 s hs'
    · refine ⟨?_, ?_⟩
      · rw [pySplitAux, if_neg hc]
        intro hmem
        rcases List.mem_cons.1 hmem with h2 | h2
        · exact hc h2.symm
        · exact ih.1 h2
      · intro s hs
        rw [pySplitAux, if_neg hc] at hs
        exact ih.2 s hs

/-- The total length of the fragments of `pySplit` is the number of
non-separator characters. -/
theorem pySplit_sum_length (sep : Char) (l : List Char) :
    ((pySplit sep l).map List.length).sum = l.countP (fun c => c != sep) := by
  unfold pySplit
  induction l with
  | nil => simp [pySplitAux]
  | cons c cs ih =>
    by_cases hc : c = sep
    · rw [pySplitAux, if_pos hc]
      simp only [List.map_cons, List.sum_cons, List.length_nil, List.countP_cons, hc]
      simp only [List.map_cons, List.sum_cons] at ih
      simp [ih]
    · rw [pySplitAux, if_neg hc]
      simp only [List.map_cons, List.sum_cons, List.length_cons, List.countP_cons]
      simp only [List.map_cons, List.sum_cons] at ih
      have hcs : (c != sep) = true := by simp [hc]
      simp only [hcs, if_true]
      omega

/-- Dropping empty fragments does not change the total fragment length. -/
theorem filter_ne_nil_sum_length (ps : List (List Char)) :
    ((ps.filter (· ≠ [])).map List.length).sum = (ps.map List.length).sum := by
  induction ps with
  | nil => rfl
  | cons p ps ih =>
    rw [List.filter_cons]
    by_cases hp : p = []
    · rw [if_neg (by simp [hp])]
      simp only [List.map_cons, List.sum_cons, hp, List.length_nil, Nat.zero_add, ih]
    · rw [if_pos (by simp [hp])]
      simp only [List.map_cons, List.sum_cons, ih]

/-- The counter values sum to the size of the counter, i.e. to the number
of occurrences folded into it. -/
theorem counterValues_sum {α : Type*} [DecidableEq α] (m : Multiset α) :
    (counterValues m).sum = Multiset.card m := by
  simpa [counterValues, Finset.sum] using Multiset.toFinset_sum_count_eq m

/-- There is one counter value per distinct element. -/
theorem counterValues_card {α : Type*} [DecidableEq α] (m : Multiset α) :
    Multiset.card (counterValues m) = m.toFinset.card := by
  simp [counterValues, Finset.card]

end Freq

namespace Chinese

/-- Unfolding of one `process_text` step into the per-block contributions. -/
theorem process_text_eq (seg : List Char → List (List Char)) (p : ProcessingPipeline)
    (text : List Char) :
    process_text seg p text =
      ⟨p.char_counter + (blockChars text : Multiset Char),
       p.word_counter + (blockWords seg text : Multiset (List Char)),
       p.sentence_counter + (blockSentences text : Multiset (List Char)),
       p.total_chars + (blockChars text).length,
       p.total_words + (blockWords seg text).length,
       p.total_sentences + (blockSentences text).length⟩ := rfl

/-- Each running total of the Chinese pipeline equals the size of the
corresponding counter, after any sequence of blocks. -/
theorem chinese_run_totals (seg : List Char → List (List Char)) (blocks : List (List Char)) :
    (run seg blocks).total_chars = Multiset.card (run seg blocks).char_counter ∧
    (run seg blocks).total_words = Multiset.card (run seg blocks).word_counter ∧
    (run seg blocks).total_sentences = Multiset.card (run seg blocks).sentence_counter := by
  suffices h : ∀ p : ProcessingPipeline,
      p.total_chars = Multiset.card p.char_counter →
      p.total_words = Multiset.card p.word_counter →
      p.total_sentences = Multiset.card p.sentence_counter →
      (blocks.foldl (process_text seg) p).total_chars
          = Multiset.card (blocks.foldl (process_text seg) p).char_counter ∧
      (blocks.foldl (process_text seg) p).total_words
          = Multiset.card (blocks.foldl (process_text seg) p).word_counter ∧
      (blocks.foldl (process_text seg) p).total_sentences
          = Multiset.card (blocks.foldl (process_text seg) p).sentence_counter by
    exact h init rfl rfl rfl
  induction blocks with
  | nil => exact fun p h1 h2 h3 => ⟨h1, h2, h3⟩
  | cons b bs ih =>
    intro p h1 h2 h3
    simp only [List.foldl_cons]
    exact ih _ (by simp [process_text_eq, h1]) (by simp [process_text_eq, h2])
      (by simp [process_text_eq, h3])

end Chinese

namespace Shakespeare

/-- Unfolding of one `process` step into the per-block contributions. -/
theorem process_eq (a : LinguisticAnalyzer) (text : List Char) :
    process a text =
      ⟨a.char_stats + (blockChars text : Multiset Char),
       a.word_stats + (blockWords text : Multiset (List Char)),
       a.chars + (blockChars text).length,
       a.words + (blockWords text).length,
       a.files + 1⟩ := rfl

/-- Each granularity total of the Shakespeare analyzer equals the size of
the corresponding counter, after any sequence of blocks. -/
theorem shakespeare_run_totals (blocks : List (List Char)) :
    (run blocks).chars = Multiset.card (run blocks).char_stats ∧
    (run blocks).words = Multiset.card (run blocks).word_stats := by
  suffices h : ∀ a : LinguisticAnalyzer,
      a.chars = Multiset.card a.char_stats →
      a.words = Multiset.card a.word_stats →
      (blocks.foldl process a).chars = Multiset.card (blocks.foldl process a).char_stats ∧
      (blocks.foldl process a).words = Multiset.card (blocks.foldl process a).word_stats by
    exact h init rfl rfl
  induction blocks with
  | nil => exact fun a h1 h2 => ⟨h1, h2⟩
  | cons b bs ih =>
    intro a h1 h2
    simp only [List.foldl_cons]
    exact ih _ (by simp [process_eq, h1]) (by simp [process_eq, h2])

end Shakespeare

namespace Chinese

/-- Accumulation steps of the pipeline commute with each other. -/
theorem process_text_right_comm (seg : List Char → List (List Char))
    (p : ProcessingPipeline) (b1 b2 : List Char) :
    process_text seg (process_text seg p b1) b2
      = process_text seg (process_text seg p b2) b1 := by
  simp only [process_text_eq, ProcessingPipeline.mk.injEq]
  exact ⟨add_right_comm _ _ _, add_right_comm _ _ _, add_right_comm _ _ _,
    add_right_comm _ _ _, add_right_comm _ _ _, add_right_comm _ _ _⟩

/-- A single block never contributes an empty sentence fragment. -/
theorem blockSentences_no_empty (text : List Char) : [] ∉ blockSentences text := by
  intro h
  have h2 := (List.mem_filter.1 h).2
  simp at h2

/-- The empty string never occurs in the sentence counter. -/
theorem run_sentence_count_empty (seg : List Char → List (List Char))
    (blocks : List (List Char)) :
    (run seg blocks).sentence_counter.count [] = 0 := by
  suffices h : ∀ p : ProcessingPipeline,
      p.sentence_counter.count [] = 0 →
      (blocks.foldl (process_text seg) p).sentence_counter.count [] = 0 by
    exact h init rfl
  induction blocks with
  | nil => exact fun p hp => hp
  | cons b bs ih =>
    intro p hp
    simp only [List.foldl_cons]
    refine ih _ ?_
    simp only [process_text_eq, Multiset.count_add, hp, Nat.zero_add]
    exact Multiset.count_eq_zero.2 (by simpa using blockSentences_no_empty b)

/-- The characters counted from one block are exactly the characters of
its kept (non-empty) sentence fragments. -/
theorem blockChars_length_eq_sentences (text : List Char) :
    (blockChars text).length = ((blockSentences text).map List.length).sum := by
  unfold blockChars blockSentences
  rw [Freq.filter_ne_nil_sum_length, Freq.pySplit_sum_length,
    List.countP_eq_length_filter]

/-- After any sequence of blocks, the character total equals the total
length of the sentence multiset. -/
theorem run_chars_eq_sentence_lengths (seg : List Char → List (List Char))
    (blocks : List (List Char)) :
    (run seg blocks).total_chars
      = ((run seg blocks).sentence_counter.map List.length).sum := by
  suffices h : ∀ p : ProcessingPipeline,
      p.total_chars = (p.sentence_counter.map List.length).sum →
      (blocks.foldl (process_text seg) p).total_chars
        = ((blocks.foldl (process_text seg) p).sentence_counter.map List.length).sum by
    exact h init rfl
  induction blocks with
  | nil => exact fun p hp => hp
  | cons b bs ih =>
    intro p hp
    simp only [List.foldl_cons]
    refine ih _ ?_
    simp only [process_text_eq, Multiset.map_add, Multiset.sum_add, hp,
      Multiset.map_coe, Multiset.sum_coe]
    rw [blockChars_length_eq_sentences]

end Chinese

namespace Shakespeare

/-- Accumulation steps of the analyzer commute with each other. -/
theorem process_right_comm (a : LinguisticAnalyzer) (b1 b2 : List Char) :
    process (process a b1) b2 = process (process a b2) b1 := by
  simp only [process_eq, LinguisticAnalyzer.mk.injEq]
  exact ⟨add_right_comm _ _ _, add_right_comm _ _ _, add_right_comm _ _ _,
    add_right_comm _ _ _, trivial⟩

end Shakespeare

/-! ## The claims -/

/-- C1: after every accumulation step (any sequence of blocks folded
through `Chinese.process_text` or `Shakespeare.process`), each running
total equals the sum of the counts stored in the corresponding frequency
table: `total_chars`, `total_words`, `total_sentences` for the Chinese
pipeline and the `chars` and `words` counts for the Shakespeare
analyzer. -/
theorem claim_C1_running_totals (seg : List Char → List (List Char))
    (blocks : List (List Char)) :
    ((Chinese.run seg blocks).total_chars
        = ∑ u ∈ (Chinese.run seg blocks).char_counter.toFinset,
            (Chinese.run seg blocks).char_counter.count u)
  ∧ ((Chinese.run seg blocks).total_words
        = ∑ u ∈ (Chinese.run seg blocks).word_counter.toFinset,
            (Chinese.run seg blocks).word_counter.count u)
  ∧ ((Chinese.run seg blocks).total_sentences
        = ∑ u ∈ (Chinese.run seg blocks).sentence_counter.toFinset,
            (Chinese.run seg blocks).sentence_counter.count u)
  ∧ ((Shakespeare.run blocks).chars
        = ∑ u ∈ (Shakespeare.run blocks).char_stats.toFinset,
            (Shakespeare.run blocks).char_stats.count u)
  ∧ ((Shakespeare.run blocks).words
        = ∑ u ∈ (Shakespeare.run blocks).word_stats.toFinset,
            (Shakespeare.run blocks).word_stats.count u) := by
  obtain ⟨h1, h2, h3⟩ := Chinese.chinese_run_totals seg blocks
  obtain ⟨g1, g2⟩ := Shakespeare.shakespeare_run_totals blocks
  refine ⟨?_, ?_, ?_, ?_, ?_⟩ <;> rw [Multiset.toFinset_sum_count_eq] <;> assumption

/-- C4: the final state of either accumulator does not depend on the
order of the blocks, nor on how they are batched: folding a permuted
list gives the same state, and folding `la` and then `lb` from the
reached state is the same as folding `la ++ lb` in one pass. -/
theorem claim_C4_order_independence (seg : List Char → List (List Char))
    (l1 l2 la lb : List (List Char)) (h : l1.Perm l2) :
    Chinese.run seg l1 = Chinese.run seg l2
  ∧ Shakespeare.run l1 = Shakespeare.run l2
  ∧ lb.foldl (Chinese.process_text seg) (Chinese.run seg la) = Chinese.run seg (la ++ lb)
  ∧ lb.foldl Shakespeare.process (Shakespeare.run la) = Shakespeare.run (la ++ lb) := by
  refine ⟨?_, ?_, ?_, ?_⟩
  · exact h.foldl_eq'
      (fun x _ y _ z => Chinese.process_text_right_comm seg z x y) Chinese.init
  · exact h.foldl_eq'
      (fun x _ y _ z => Shakespeare.process_right_comm z x y) Shakespeare.init
  · rw [Chinese.run, Chinese.run, List.foldl_append]
  · rw [Shakespeare.run, Shakespeare.run, List.foldl_append]

theorem claim_C4_order_independence_witness :
    ([['a'], ['b'], ['c']] : List (List Char)).Perm [['c'], ['a'], ['b']]
  ∧ Chinese.run (fun t => [t]) [['a'], ['b'], ['c']]
      = Chinese.run (fun t => [t]) [['c'], ['a'], ['b']] :=
  ⟨by decide,
   (claim_C4_order_independence (fun t => [t]) [['a'], ['b'], ['c']]
      [['c'], ['a'], ['b']] [] [] (by decide)).1⟩

/-- C7: sentence splitting splits the cleaned block on the terminator and
drops empty fragments, so no block ever contributes an empty-string
sentence and the sentence counter never contains the empty string. -/
theorem claim_C7_no_empty_sentences :
    (∀ text : List Char, [] ∉ Chinese.blockSentences text)
  ∧ (∀ (seg : List Char → List (List Char)) (blocks : List (List Char)),
      (Chinese.run seg blocks).sentence_counter.count [] = 0) :=
  ⟨Chinese.blockSentences_no_empty, Chinese.run_sentence_count_empty⟩

/-- C9: accumulating an empty block changes nothing: the Chinese pipeline
state is completely unchanged (given that the segmenter maps the empty
text to no words, as `jieba.lcut` does), and the Shakespeare analyzer's
two frequency tables and two granularity totals are unchanged. -/
theorem claim_C9_empty_block_noop :
    (∀ (seg : List Char → List (List Char)) (p : Chinese.ProcessingPipeline),
        seg [] = [] → Chinese.process_text seg p [] = p)
  ∧ (∀ a : Shakespeare.LinguisticAnalyzer,
        (Shakespeare.process a []).char_stats = a.char_stats
      ∧ (Shakespeare.process a []).word_stats = a.word_stats
      ∧ (Shakespeare.process a []).chars = a.chars
      ∧ (Shakespeare.process a []).words = a.words) := by
  constructor
  · intro seg p hseg
    rw [Chinese.process_text_eq]
    have hw : Chinese.blockWords seg [] = [] := hseg
    cases p
    simp [Chinese.blockChars, Chinese.blockSentences, Chinese.cleaned, hw,
      Freq.pySplit, Freq.pySplitAux]
  · intro a
    have hc : Shakespeare.blockChars [] = [] := rfl
    have hw : Shakespeare.blockWords [] = [] := rfl
    rw [Shakespeare.process_eq]
    simp [hc, hw]

theorem claim_C9_empty_block_noop_witness :
    Chinese.process_text (fun _ => []) Chinese.init [] = Chinese.init :=
  claim_C9_empty_block_noop.1 (fun _ => []) Chinese.init rfl

/-- C10: in the Chinese pipeline the character total always equals the
sum over the sentence table of (sentence length × its count): both are
derived from the same cleaned, terminator-stripped text, and the kept
fragments partition exactly the counted characters. -/
theorem claim_C10_chars_partition_sentences (seg : List Char → List (List Char))
    (blocks : List (List Char)) :
    (Chinese.run seg blocks).total_chars
      = ∑ s ∈ (Chinese.run seg blocks).sentence_counter.toFinset,
          (Chinese.run seg blocks).sentence_counter.count s * s.length := by
  rw [Chinese.run_chars_eq_sentence_lengths seg blocks,
    Finset.sum_multiset_map_count]
  simp [smul_eq_mul]

/-- C5: for every frequency table the rank-frequency builder pairs the
rank sequence `1..N` (`N` = number of distinct units) with a
non-increasing frequency sequence whose length is `N` and whose sum is
the table's total count. -/
theorem claim_C5_rank_frequency {α : Type*} [DecidableEq α] (counter : Multiset α) :
    (Freq.rank_frequency counter).1 = List.range' 1 counter.toFinset.card
  ∧ List.Sorted (· ≥ ·) (Freq.rank_frequency counter).2
  ∧ (Freq.rank_frequency counter).2.length = counter.toFinset.card
  ∧ (Freq.rank_frequency counter).2.sum = Multiset.card counter := by
  refine ⟨rfl, ?_, ?_, ?_⟩
  · rw [Freq.rank_frequency, Freq.sortDesc, List.Sorted, List.pairwise_reverse]
    simp only [ge_iff_le]
    exact Multiset.sort_sorted _ _
  · rw [Freq.rank_frequency, Freq.sortDesc, List.length_reverse,
      Multiset.length_sort, Freq.counterValues_card]
  · rw [Freq.rank_frequency, Freq.sortDesc, List.sum_reverse, ← Multiset.sum_coe,
      Multiset.sort_eq, Freq.counterValues_sum]

namespace Chinese

/-- The entropy loop, rewritten as a sum over the distinct units. -/
theorem calculate_entropy_eq_sum {α : Type*} [DecidableEq α] (counter : Multiset α)
    (total alpha : ℝ) :
    calculate_entropy counter total alpha
      = ∑ u ∈ counter.toFinset,
          -(((counter.count u : ℝ) + alpha) / (total + alpha * (counter.toFinset.card : ℝ)) *
            Real.logb 2
              (((counter.count u : ℝ) + alpha) /
                (total + alpha * (counter.toFinset.card : ℝ)))) := by
  unfold calculate_entropy Freq.counterValues
  rw [Multiset.map_map]
  rfl

end Chinese

/-- C2: the entropy function returns the sum over the table's distinct
units of `-p * log2 p` where `p = (c + alpha) / (total + alpha * N)` and
`N` is the number of distinct units (the denominator uses `alpha * N`);
the Shakespeare variant is the same function with `alpha = 1e-10`. -/
theorem claim_C2_entropy_formula {α : Type*} [DecidableEq α] (counter : Multiset α)
    (total alpha : ℝ) :
    (Chinese.calculate_entropy counter total alpha
      = ∑ u ∈ counter.toFinset,
          -(((counter.count u : ℝ) + alpha) / (total + alpha * (counter.toFinset.card : ℝ)) *
            Real.logb 2
              (((counter.count u : ℝ) + alpha) /
                (total + alpha * (counter.toFinset.card : ℝ)))))
  ∧ Shakespeare.calculate_entropy counter total
      = Chinese.calculate_entropy counter total (1 / 10 ^ 10) :=
  ⟨Chinese.calculate_entropy_eq_sum counter total alpha, rfl⟩

/-- C3: on the empty frequency table (total `0`, no distinct units) the
entropy functions return exactly `0` and are total (no failure case);
in particular `entropy({}, 0, 1e-5) = 0`. -/
theorem claim_C3_empty_entropy :
    Chinese.calculate_entropy (0 : Multiset (List Char)) 0 (1 / 100000) = 0
  ∧ Shakespeare.calculate_entropy (0 : Multiset (List Char)) 0 = 0 := by
  constructor <;>
    simp [Chinese.calculate_entropy, Shakespeare.calculate_entropy, Freq.counterValues]

/-- Any finite strictly-positive probability vector has non-negative
entropy, entropy at most `log2` of the number of outcomes, and zero
entropy only for a single outcome. -/
theorem sum_neg_mul_logb_props {α : Type*} [DecidableEq α] (s : Finset α) (p : α → ℝ) (hs : s.Nonempty)
    (hpos : ∀ u ∈ s, 0 < p u) (hsum : ∑ u ∈ s, p u = 1) :
    0 ≤ ∑ u ∈ s, -(p u * Real.logb 2 (p u))
  ∧ ∑ u ∈ s, -(p u * Real.logb 2 (p u)) ≤ Real.logb 2 (s.card : ℝ)
  ∧ (∑ u ∈ s, -(p u * Real.logb 2 (p u)) = 0 → s.card = 1) := by
  have hple : ∀ u ∈ s, p u ≤ 1 := by
    intro u hu
    calc p u ≤ ∑ v ∈ s, p v := Finset.single_le_sum (fun v hv => (hpos v hv).le) hu
    _ = 1 := hsum
  have hterm : ∀ u ∈ s, 0 ≤ -(p u * Real.logb 2 (p u)) := by
    intro u hu
    have hl := Real.logb_nonpos (b := 2) one_lt_two (hpos u hu).le (hple u hu)
    nlinarith [hpos u hu]
  refine ⟨Finset.sum_nonneg hterm, ?_, ?_⟩
  · have hstep1 : ∀ u ∈ s, -(p u * Real.logb 2 (p u)) = p u * Real.logb 2 (p u)⁻¹ := by
      intro u hu
      rw [Real.logb_inv]
      ring
    rw [Finset.sum_congr rfl hstep1]
    have hconc : ConcaveOn ℝ (Set.Ioi 0) Real.log := strictConcaveOn_log_Ioi.concaveOn
    have hjen := hconc.le_map_sum (fun u hu => (hpos u hu).le) hsum
      (fun u hu => Set.mem_Ioi.2 (inv_pos.2 (hpos u hu)))
    have hsum2 : ∑ u ∈ s, p u • (p u)⁻¹ = (s.card : ℝ) := by
      rw [Finset.sum_congr rfl
        (fun u hu => by rw [smul_eq_mul, mul_inv_cancel₀ (ne_of_gt (hpos u hu))])]
      simp
    rw [hsum2] at hjen
    have hlog2 : 0 < Real.log 2 := Real.log_pos one_lt_two
    have hconv : ∑ u ∈ s, p u * Real.logb 2 (p u)⁻¹
        = (∑ u ∈ s, p u * Real.log (p u)⁻¹) / Real.log 2 := by
      rw [Finset.sum_div]
      refine Finset.sum_congr rfl fun u hu => ?_
      rw [← Real.log_div_log]
      ring
    rw [hconv, ← Real.log_div_log]
    refine (div_le_div_iff_of_pos_right hlog2).2 ?_
    simpa [smul_eq_mul] using hjen
  · intro h0
    by_contra hc
    have hcard : 1 < s.card := by
      rcases hs with ⟨u, hu⟩
      have h1 : 1 ≤ s.card := Finset.card_pos.2 ⟨u, hu⟩
      omega
    have hall := (Finset.sum_eq_zero_iff_of_nonneg hterm).1 h0
    have hpall : ∀ w ∈ s, p w = 1 := by
      intro w hw
      have hz : p w * Real.logb 2 (p w) = 0 := by
        have := hall w hw
        linarith
      have hlogb0 : Real.logb 2 (p w) = 0 := by
        rcases mul_eq_zero.1 hz with h | h
        · exact absurd h (ne_of_gt (hpos w hw))
        · exact h
      exact Real.eq_one_of_pos_of_logb_eq_zero one_lt_two (hpos w hw) hlogb0
    rcases hs with ⟨u, hu⟩
    obtain ⟨v, hv, hvu⟩ := Finset.exists_ne_of_one_lt_card hcard u
    have hsub : ({u, v} : Finset α) ⊆ s := by
      intro x hx
      rcases Finset.mem_insert.1 hx with rfl | hx'
      · exact hu
      · rw [Finset.mem_singleton.1 hx']
        exact hv
    have hpair : ∑ w ∈ ({u, v} : Finset α), p w = 2 := by
      classical
      rw [Finset.sum_pair (Ne.symm hvu), hpall u hu, hpall v hv]
      norm_num
    have hle : ∑ w ∈ ({u, v} : Finset α), p w ≤ ∑ w ∈ s, p w :=
      Finset.sum_le_sum_of_subset_of_nonneg hsub (fun w hw _ => (hpos w hw).le)
    rw [hsum, hpair] at hle
    linarith

/-- C6: for a non-empty table with its actual total and a non-negative
smoothing parameter, the entropy lies in `[0, log2(total + alpha * N)]`
(`N` = distinct units), and it can vanish only when the total is zero or
the table has exactly one unit. -/
theorem claim_C6_entropy_bounds {α : Type*} [DecidableEq α] (m : Multiset α) (alpha : ℝ)
    (hm : m ≠ 0) (ha : 0 ≤ alpha) :
    0 ≤ Chinese.calculate_entropy m (Multiset.card m) alpha
  ∧ Chinese.calculate_entropy m (Multiset.card m) alpha
      ≤ Real.logb 2 ((Multiset.card m : ℝ) + alpha * (m.toFinset.card : ℝ))
  ∧ (Chinese.calculate_entropy m (Multiset.card m) alpha = 0 →
      Multiset.card m = 0 ∨ m.toFinset.card = 1) := by
  have hNe : m.toFinset.Nonempty := Multiset.toFinset_nonempty.2 hm
  have hcard1 : 1 ≤ Multiset.card m := by
    have := Multiset.card_pos.2 hm
    omega
  have hT1 : (1 : ℝ) ≤ (Multiset.card m : ℝ) := by exact_mod_cast hcard1
  have hD0 : 0 < (Multiset.card m : ℝ) + alpha * (m.toFinset.card : ℝ) := by
    have : 0 ≤ alpha * (m.toFinset.card : ℝ) := mul_nonneg ha (Nat.cast_nonneg _)
    linarith
  set p : α → ℝ := fun u =>
    ((m.count u : ℝ) + alpha) /
      ((Multiset.card m : ℝ) + alpha * (m.toFinset.card : ℝ)) with hpdef
  have hpos : ∀ u ∈ m.toFinset, 0 < p u := by
    intro u hu
    have h1 : 1 ≤ m.count u := Multiset.one_le_count_iff_mem.2 (Multiset.mem_toFinset.1 hu)
    have h1' : (1 : ℝ) ≤ (m.count u : ℝ) := by exact_mod_cast h1
    exact div_pos (by linarith) hD0
  have hsum : ∑ u ∈ m.toFinset, p u = 1 := by
    simp only [hpdef]
    rw [← Finset.sum_div]
    have hnum : ∑ u ∈ m.toFinset, ((m.count u : ℝ) + alpha)
        = (Multiset.card m : ℝ) + alpha * (m.toFinset.card : ℝ) := by
      rw [Finset.sum_add_distrib, Finset.sum_const, nsmul_eq_mul]
      have hT : ∑ u ∈ m.toFinset, (m.count u : ℝ) = (Multiset.card m : ℝ) := by
        rw [← Nat.cast_sum]
        exact_mod_cast congrArg Nat.cast (Multiset.toFinset_sum_count_eq m)
      rw [hT]
      ring
    rw [hnum, div_self (ne_of_gt hD0)]
  have hE : Chinese.calculate_entropy m (Multiset.card m) alpha
      = ∑ u ∈ m.toFinset, -(p u * Real.logb 2 (p u)) := by
    rw [Chinese.calculate_entropy_eq_sum]
  obtain ⟨b1, b2, b3⟩ := sum_neg_mul_logb_props m.toFinset p hNe hpos hsum
  refine ⟨by rw [hE]; exact b1, ?_, fun h0 => Or.inr (b3 (by rw [hE] at h0; exact h0))⟩
  rw [hE]
  refine le_trans b2 ?_
  apply Real.logb_le_logb_of_le one_lt_two
  · exact_mod_cast Finset.card_pos.2 hNe
  · have hNT : (m.toFinset.card : ℝ) ≤ (Multiset.card m : ℝ) := by
      exact_mod_cast Multiset.toFinset_card_le m
    have : 0 ≤ alpha * (m.toFinset.card : ℝ) := mul_nonneg ha (Nat.cast_nonneg _)
    linarith

theorem claim_C6_entropy_bounds_witness :
    (({'a', 'b'} : Multiset Char) ≠ 0)
  ∧ (0 : ℝ) ≤ 1 / 100000
  ∧ 0 ≤ Chinese.calculate_entropy ({'a', 'b'} : Multiset Char)
        (Multiset.card ({'a', 'b'} : Multiset Char)) (1 / 100000) :=
  ⟨by decide, by norm_num,
   (claim_C6_entropy_bounds ({'a', 'b'} : Multiset Char) (1 / 100000)
      (by decide) (by norm_num)).1⟩

namespace Shakespeare

/-- A successful backtracking result is a length between 2 and the
starting candidate. -/
theorem bestEnd_bounds (run : List Char) (wnext : Bool) :
    ∀ n k, bestEnd run wnext n = some k → 2 ≤ k ∧ k ≤ n := by
  intro n
  induction n with
  | zero => intro k h; simp [bestEnd] at h
  | succ n ih =>
    intro k h
    rw [bestEnd] at h
    split_ifs at h with hc
    · injection h with h
      subst h
      simp only [Bool.and_eq_true, decide_eq_true_eq] at hc
      exact ⟨hc.1, le_refl _⟩
    · obtain ⟨h2, hle⟩ := ih k h
      exact ⟨h2, by omega⟩

/-- Every word produced by the scanner has length at least 2 and consists
only of characters from the class `[a-z']`. -/
theorem findWordsAux_sound :
    ∀ (fuel : ℕ) (p : Option Char) (l : List Char),
      ∀ w ∈ findWordsAux fuel p l, 2 ≤ w.length ∧ ∀ c ∈ w, isClassChar c = true := by
  intro fuel
  induction fuel with
  | zero => intro p l w hw; simp [findWordsAux] at hw
  | succ n ih =>
    intro p l w hw
    cases l with
    | nil => simp [findWordsAux] at hw
    | cons c cs =>
      simp only [findWordsAux] at hw
      split at hw
      next k heq =>
        have hk : bestEnd ((c :: cs).takeWhile isClassChar)
            (wordOpt ((c :: cs).drop ((c :: cs).takeWhile isClassChar).length).head?)
            ((c :: cs).takeWhile isClassChar).length = some k := by
          split_ifs at heq with hcond
          exact heq
        obtain ⟨h2, hle⟩ := bestEnd_bounds _ _ _ _ hk
        rcases List.mem_cons.1 hw with rfl | hw'
        · constructor
          · rw [List.length_take]
            omega
          · intro ch hch
            exact List.mem_takeWhile_imp (List.mem_of_mem_take hch)
        · exact ih _ _ w hw'
      next heq => exact ih _ _ w hw

/-- Every word ever entered into the analyzer's word table satisfies the
word-shape property above. -/
theorem shakespeare_run_words_sound (blocks : List (List Char)) :
    ∀ w ∈ (run blocks).word_stats, 2 ≤ w.length ∧ ∀ c ∈ w, isClassChar c = true := by
  suffices h : ∀ a : LinguisticAnalyzer,
      (∀ w ∈ a.word_stats, 2 ≤ w.length ∧ ∀ c ∈ w, isClassChar c = true) →
      ∀ w ∈ (blocks.foldl process a).word_stats,
        2 ≤ w.length ∧ ∀ c ∈ w, isClassChar c = true by
    exact h init (fun w hw => absurd hw (Multiset.not_mem_zero w))
  induction blocks with
  | nil => exact fun a ha => ha
  | cons b bs ih =>
    intro a ha
    simp only [List.foldl_cons]
    refine ih _ ?_
    intro w hw
    rw [process_eq] at hw
    rcases Multiset.mem_add.1 hw with hw' | hw'
    · exact ha w hw'
    · exact findWordsAux_sound _ _ _ w (by simpa using hw')

end Shakespeare

/-- C8 fails as stated: the block `1''2` (a digit, two apostrophes, a
digit) makes the extractor add the word consisting of two apostrophes to
the word table — apostrophes at both edges and no letters at all. -/
theorem claim_C8_counterexample :
    [Shakespeare.apos, Shakespeare.apos]
        ∈ (Shakespeare.process Shakespeare.init
            ['1', Shakespeare.apos, Shakespeare.apos, '2']).word_stats
  ∧ [Shakespeare.apos, Shakespeare.apos].head? = some Shakespeare.apos
  ∧ [Shakespeare.apos, Shakespeare.apos].getLast? = some Shakespeare.apos
  ∧ ∀ c ∈ [Shakespeare.apos, Shakespeare.apos], Shakespeare.isLowerAZ c = false := by
  decide

/-- C8 (amended): every word the pattern-based extractor adds to the word
frequency table has length at least 2 and consists only of lowercase
letters and apostrophes; apostrophes may however also occur at the edges
(or even make up the whole word) when the neighbouring character in the
block is a digit or an underscore. -/
theorem claim_C8_word_shape (blocks : List (List Char)) (w : List Char)
    (hw : w ∈ (Shakespeare.run blocks).word_stats) :
    2 ≤ w.length ∧ ∀ c ∈ w, Shakespeare.isClassChar c = true :=
  Shakespeare.shakespeare_run_words_sound blocks w hw

theorem claim_C8_word_shape_witness :
    (['a', 'b'] ∈ (Shakespeare.run [['a', 'b']]).word_stats)
  ∧ (2 ≤ (['a', 'b'] : List Char).length
      ∧ ∀ c ∈ (['a', 'b'] : List Char), Shakespeare.isClassChar c = true) :=
  ⟨by decide, claim_C8_word_shape [['a', 'b']] ['a', 'b'] (by decide)⟩
